import Mathlib

/-!
Formal model of the notebook-translation scripts `translate_notebooks.py`,
`translate_notebooks2.py` and `translate_notebooks_gcloud.py`.

The scripts translate the textual content of Jupyter notebooks: markdown
cell bodies always, and (in `translate_notebooks2.py`, optionally) long
quoted string literals inside code cells.  The model is a shallow embedding:

* a backend translation call is an `Outcome` (it either raises or returns a
  result text); a whole provider-call sequence is a function `Nat → Outcome`
  giving the outcome of each successive backend invocation;
* the resilient translate functions are total Lean functions returning a
  `TransResult`, which records the returned text together with the number of
  backend invocations and `time.sleep(delay)` calls actually performed —
  totality reflects the `try/except Exception` that catches every backend
  error inside those functions;
* notebooks are modelled structurally (`cells` plus opaque extra data that
  `json.load`/`json.dump` round-trips), and writing the output file is
  modelled by the `written` field of a `WalkResult`;
* the regex scan `STRING_LITERAL_RE.sub` over code cells is embedded as an
  explicit scanner with the same greedy-quote / lazy-content / backreference
  semantics.
-/

/-- Outcome of a single backend translation call: the call either raises an
exception, or returns a result whose text is `t`.  The falsy Python results (`None`, or a result with empty `.text`) are represented by `ok ""`. -/
inductive Outcome where
  | raise : Outcome
  | ok : String → Outcome
deriving DecidableEq, Repr

/-- Observable behaviour of one resilient translation call: the text finally
returned, the number of backend invocations made, and the number of
`time.sleep(delay)` calls performed. -/
structure TransResult where
  text : String
  calls : Nat
  sleeps : Nat
deriving DecidableEq, Repr

/-- Characters for which the Python predicate `str.isspace()` is true; `str.strip()` with
no argument removes exactly these characters from both ends. -/
def isPySpace (c : Char) : Bool :=
  c = ' ' || c = '\t' || c = '\n' || c = '\r' || c = '\x0b' || c = '\x0c' ||
  c = '\x1c' || c = '\x1d' || c = '\x1e' || c = '\x1f' || c = '\x85' || c = '\xa0' ||
  c = ' ' || (' ' ≤ c && c ≤ ' ') || c = ' ' || c = ' ' ||
  c = ' ' || c = ' ' || c = '　'

/-- Python `text.strip()` with no argument: remove leading and trailing
whitespace characters. -/
def pyStrip (s : String) : String :=
  String.mk (((s.data.dropWhile isPySpace).reverse.dropWhile isPySpace).reverse)

theorem pyStrip_eq_empty_of_all_space (s : String) (h : s.data.all isPySpace = true) :
    pyStrip s = "" := by
  have hd : s.data.dropWhile isPySpace = [] := by
    rw [List.dropWhile_eq_nil_iff]
    intro x hx
    exact List.all_eq_true.mp h x hx
  simp [pyStrip, hd]

/-- The retry loop shared by `translate_text` (`translate_notebooks.py`) and
`GoogletransTranslator.translate` (`translate_notebooks2.py`):
`for attempt in range(1, retries + 1)`.  `p i` is the outcome the backend
produces on the `(i+1)`-st invocation; recursive calls shift `p` so that the
head is always the next invocation.  On a non-empty result the loop returns
immediately; on a falsy result it continues without sleeping (no exception
was raised); on a raised exception it logs a warning, sleeps `delay` seconds
(counted in `sleeps`) and continues. -/
def attemptLoop (text : String) (p : Nat → Outcome) : Nat → TransResult
  | 0 => ⟨text, 0, 0⟩
  | r + 1 =>
    match p 0 with
    | Outcome.ok t =>
      if t = "" then
        let rest := attemptLoop text (fun i => p (i + 1)) r
        ⟨rest.text, rest.calls + 1, rest.sleeps⟩
      else ⟨t, 1, 0⟩
    | Outcome.raise =>
      let rest := attemptLoop text (fun i => p (i + 1)) r
      ⟨rest.text, rest.calls + 1, rest.sleeps + 1⟩

/-- Model of `translate_text(text, translator, retries=3, delay=2)` from
`translate_notebooks.py` lines 43-75: empty/whitespace short-circuit, then
the bounded retry loop; after exhausting all attempts it logs an error and
returns the original text.  Every backend exception is caught inside the
loop (`except Exception`), so the function is total and no exception
propagates to the caller.  `delay` fixes the duration of each sleep only and
does not influence the result. -/
def TranslateNotebooks.translate_text (text : String) (p : Nat → Outcome)
    (retries : Nat) (delay : Nat) : TransResult :=
  if pyStrip text = "" then ⟨text, 0, 0⟩ else attemptLoop text p retries

/-- Model of `GoogletransTranslator.translate` from `translate_notebooks2.py`
lines 73-87: textually the same retry loop as `translate_text`, with `retries` and
`delay` taken from the constructor parameters (defaults 3 and 2). -/
def GoogletransTranslator.translate (text : String) (p : Nat → Outcome)
    (retries : Nat) (delay : Nat) : TransResult :=
  if pyStrip text = "" then ⟨text, 0, 0⟩ else attemptLoop text p retries

/-- Model of `GoogleCloudTranslator.translate` from `translate_notebooks2.py`
lines 104-113: whitespace short-circuit, then a single backend call; an exception
is caught, logged, and the original text returned.  There is no retry loop
and no sleep. -/
def GoogleCloudTranslator.translate (text : String) (o : Outcome) : TransResult :=
  if pyStrip text = "" then ⟨text, 0, 0⟩ else
    match o with
    | Outcome.ok t => ⟨t, 1, 0⟩
    | Outcome.raise => ⟨text, 1, 0⟩

/-- Model of `translate_text(text, target_lang)` from
`translate_notebooks_gcloud.py` lines 44-56: identical single-attempt shape
to `GoogleCloudTranslator.translate` (whitespace short-circuit, one backend
call, fall back to the original text on an exception). -/
def Gcloud.translate_text (text : String) (o : Outcome) : TransResult :=
  if pyStrip text = "" then ⟨text, 0, 0⟩ else
    match o with
    | Outcome.ok t => ⟨t, 1, 0⟩
    | Outcome.raise => ⟨text, 1, 0⟩

/-- An attempt fails, in the sense of the retry loop, when it raises or when
it produces a falsy result (`None` result or empty text). -/
def attemptFails (o : Outcome) : Prop :=
  o = Outcome.raise ∨ o = Outcome.ok ""

instance (o : Outcome) : Decidable (attemptFails o) :=
  inferInstanceAs (Decidable (_ ∨ _))

/-- Number of raising outcomes among the first `n` backend invocations. -/
def countRaises (p : Nat → Outcome) : Nat → Nat
  | 0 => 0
  | n + 1 => (if p 0 = Outcome.raise then 1 else 0) + countRaises (fun i => p (i + 1)) n

theorem attemptLoop_calls_le (text : String) (p : Nat → Outcome) (r : Nat) :
    (attemptLoop text p r).calls ≤ r := by
  induction r generalizing p with
  | zero => simp [attemptLoop]
  | succ n ih =>
    simp only [attemptLoop]
    cases hp : p 0 with
    | raise => simpa using Nat.succ_le_succ (ih _)
    | ok t =>
      by_cases ht : t = ""
      · simp only [ht, if_pos rfl]
        simpa using Nat.succ_le_succ (ih _)
      · simp [ht]

theorem attemptLoop_sleeps_eq (text : String) (p : Nat → Outcome) (r : Nat) :
    (attemptLoop text p r).sleeps = countRaises p ((attemptLoop text p r).calls) := by
  induction r generalizing p with
  | zero => simp [attemptLoop, countRaises]
  | succ n ih =>
    simp only [attemptLoop]
    cases hp : p 0 with
    | raise =>
      simp [countRaises, hp, ih]
      omega
    | ok t =>
      by_cases ht : t = ""
      · simp [ht, countRaises, hp, ih]
      · simp [ht, countRaises, hp]

theorem attemptLoop_exhausted (text : String) (p : Nat → Outcome) (r : Nat)
    (h : ∀ i, i < r → attemptFails (p i)) :
    (attemptLoop text p r).text = text ∧ (attemptLoop text p r).calls = r := by
  induction r generalizing p with
  | zero => simp [attemptLoop]
  | succ n ih =>
    simp only [attemptLoop]
    have h0 : attemptFails (p 0) := h 0 (Nat.succ_pos n)
    have hrest : ∀ i, i < n → attemptFails (p (i + 1)) := by
      intro i hi
      exact h (i + 1) (Nat.succ_lt_succ hi)
    cases hp : p 0 with
    | raise =>
      have := ih (fun i => p (i + 1)) hrest
      simp [this.1, this.2]
    | ok t =>
      have ht : t = "" := by
        rcases h0 with h1 | h1
        · rw [hp] at h1; exact absurd h1 (by simp)
        · rw [hp] at h1; injection h1
      have := ih (fun i => p (i + 1)) hrest
      simp [ht, this.1, this.2]

theorem attemptLoop_first_success (text t : String) (p : Nat → Outcome) (k r : Nat)
    (hk : k < r) (hfail : ∀ i, i < k → attemptFails (p i))
    (hok : p k = Outcome.ok t) (ht : t ≠ "") :
    (attemptLoop text p r).text = t ∧ (attemptLoop text p r).calls = k + 1 := by
  induction k generalizing p r with
  | zero =>
    obtain ⟨n, rfl⟩ : ∃ n, r = n + 1 := ⟨r - 1, by omega⟩
    simp [attemptLoop, hok, ht]
  | succ m ih =>
    obtain ⟨n, rfl⟩ : ∃ n, r = n + 1 := ⟨r - 1, by omega⟩
    have h0 : attemptFails (p 0) := hfail 0 (Nat.succ_pos m)
    have hrest : ∀ i, i < m → attemptFails (p (i + 1)) := by
      intro i hi
      exact hfail (i + 1) (Nat.succ_lt_succ hi)
    have hm : m < n := Nat.lt_of_succ_lt_succ hk
    have hok' : (fun i => p (i + 1)) m = Outcome.ok t := hok
    simp only [attemptLoop]
    cases hp : p 0 with
    | raise =>
      have := ih (fun i => p (i + 1)) n hm hrest hok'
      simp [this.1, this.2]
    | ok u =>
      have hu : u = "" := by
        rcases h0 with h1 | h1
        · rw [hp] at h1; exact absurd h1 (by simp)
        · rw [hp] at h1; injection h1
      have := ih (fun i => p (i + 1)) n hm hrest hok'
      simp [hu, this.1, this.2]

/-- C1: if the backend raises on every one of the `retries` attempts, both
resilient translate functions (`translate_text` in `translate_notebooks.py`
and `GoogletransTranslator.translate` in `translate_notebooks2.py`) return
the original input text of the unit exactly; the model is a total function — the
`except Exception` inside the loop catches every backend exception — so no
exception propagates to the caller. -/
theorem claim_C1 (text : String) (p : Nat → Outcome) (retries delay : Nat)
    (hfail : ∀ i, i < retries → p i = Outcome.raise) :
    (TranslateNotebooks.translate_text text p retries delay).text = text ∧
    (GoogletransTranslator.translate text p retries delay).text = text := by
  have hf : ∀ i, i < retries → attemptFails (p i) := by
    intro i hi
    exact Or.inl (hfail i hi)
  have hloop := attemptLoop_exhausted text p retries hf
  constructor
  · unfold TranslateNotebooks.translate_text
    by_cases hs : pyStrip text = ""
    · simp [hs]
    · simp [hs, hloop.1]
  · unfold GoogletransTranslator.translate
    by_cases hs : pyStrip text = ""
    · simp [hs]
    · simp [hs, hloop.1]

theorem claim_C1_witness :
    (TranslateNotebooks.translate_text "hello" (fun _ => Outcome.raise) 3 2).text = "hello" ∧
    (GoogletransTranslator.translate "hello" (fun _ => Outcome.raise) 3 2).text = "hello" :=
  claim_C1 "hello" (fun _ => Outcome.raise) 3 2 (fun _ _ => rfl)

/-- C7: for a unit whose text is empty or consists only of whitespace, every
provider variant returns the input unchanged and performs zero backend
invocations (the `if not text.strip(): return text` short-circuit). -/
theorem claim_C7 (text : String) (p : Nat → Outcome) (retries delay : Nat)
    (o₁ o₂ : Outcome) (h : text.data.all isPySpace = true) :
    TranslateNotebooks.translate_text text p retries delay = ⟨text, 0, 0⟩ ∧
    GoogletransTranslator.translate text p retries delay = ⟨text, 0, 0⟩ ∧
    GoogleCloudTranslator.translate text o₁ = ⟨text, 0, 0⟩ ∧
    Gcloud.translate_text text o₂ = ⟨text, 0, 0⟩ := by
  have hs := pyStrip_eq_empty_of_all_space text h
  refine ⟨?_, ?_, ?_, ?_⟩ <;>
    simp [TranslateNotebooks.translate_text, GoogletransTranslator.translate,
      GoogleCloudTranslator.translate, Gcloud.translate_text, hs]

theorem claim_C7_witness :
    GoogletransTranslator.translate " \t\n" (fun _ => Outcome.ok "X") 3 2 = ⟨" \t\n", 0, 0⟩ :=
  (claim_C7 " \t\n" (fun _ => Outcome.ok "X") 3 2 Outcome.raise Outcome.raise
    (by decide)).2.1

/-- C4 counterexample: with a backend that raises on the first invocation and
would return `"X"` on the second, the googletrans retry layer returns `"X"`
(it retries), while `GoogleCloudTranslator.translate` — also cited as a
resilient translation layer by the claim — makes exactly one backend call and
returns the original text: it never attempts the call again, although the
first attempt failed and `retries = 3` attempts were claimed. -/
theorem claim_C4_counterexample :
    (GoogletransTranslator.translate "hello"
      (fun i => if i = 0 then Outcome.raise else Outcome.ok "X") 3 2).text = "X" ∧
    (GoogleCloudTranslator.translate "hello" Outcome.raise).text = "hello" ∧
    (GoogleCloudTranslator.translate "hello" Outcome.raise).calls = 1 := by
  refine ⟨?_, ?_, ?_⟩ <;> decide

/-- C4 (amended): the googletrans resilient layer
(`GoogletransTranslator.translate`) makes at most `retries` backend calls,
sleeps `delay` seconds exactly after each raising attempt (including a
raising final attempt), returns immediately on the first non-empty result,
and returns the original text after `retries` failed attempts.  The Google
Cloud variant (`GoogleCloudTranslator.translate`) instead makes exactly one
backend call and falls back to the original text if that call raises. -/
theorem claim_C4 (text : String) (p : Nat → Outcome) (retries delay : Nat)
    (o : Outcome) (ht : pyStrip text ≠ "") :
    (GoogletransTranslator.translate text p retries delay).calls ≤ retries ∧
    (GoogletransTranslator.translate text p retries delay).sleeps =
      countRaises p (GoogletransTranslator.translate text p retries delay).calls ∧
    (∀ k t, k < retries → (∀ i, i < k → attemptFails (p i)) →
      p k = Outcome.ok t → t ≠ "" →
      (GoogletransTranslator.translate text p retries delay).text = t ∧
      (GoogletransTranslator.translate text p retries delay).calls = k + 1) ∧
    ((∀ i, i < retries → attemptFails (p i)) →
      (GoogletransTranslator.translate text p retries delay).text = text ∧
      (GoogletransTranslator.translate text p retries delay).calls = retries) ∧
    (GoogleCloudTranslator.translate text o).calls = 1 ∧
    (o = Outcome.raise → (GoogleCloudTranslator.translate text o).text = text) := by
  unfold GoogletransTranslator.translate GoogleCloudTranslator.translate
  rw [if_neg ht, if_neg ht]
  refine ⟨attemptLoop_calls_le text p retries, attemptLoop_sleeps_eq text p retries,
    ?_, ?_, ?_, ?_⟩
  · intro k t hk hfail hok htne
    exact attemptLoop_first_success text t p k retries hk hfail hok htne
  · intro hfail
    exact attemptLoop_exhausted text p retries hfail
  · cases o <;> rfl
  · intro ho
    subst ho
    rfl

theorem claim_C4_witness :
    (GoogletransTranslator.translate "hello"
      (fun i => if i = 0 then Outcome.raise else Outcome.ok "X") 3 2).text = "X" ∧
    (GoogletransTranslator.translate "hello"
      (fun i => if i = 0 then Outcome.raise else Outcome.ok "X") 3 2).calls = 2 :=
  (claim_C4 "hello" (fun i => if i = 0 then Outcome.raise else Outcome.ok "X") 3 2
      Outcome.raise (by decide)).2.2.1 1 "X" (by decide)
    (fun i hi => by
      have h0 : i = 0 := by omega
      subst h0
      exact Or.inl rfl)
    (by decide) (by decide)

/-- A character accepted by the regex character class `['\"]`. -/
def isQuoteChar (c : Char) : Bool := c = '\'' || c = '"'

/-- The lazy search `.*?(?P=quote)`: scanning left to right, stop at the first
position where the captured marker `m` occurs; return the content before the
marker and the input after it. -/
def findClose (m : List Char) : List Char → Option (List Char × List Char)
  | [] => none
  | c :: rest =>
    if (c :: rest).take m.length = m then some ([], (c :: rest).drop m.length)
    else
      match findClose m rest with
      | some (content, r) => some (c :: content, r)
      | none => none

theorem findClose_eq (m : List Char) (l content r : List Char)
    (h : findClose m l = some (content, r)) : l = content ++ m ++ r := by
  induction l generalizing content with
  | nil => simp [findClose] at h
  | cons c rest ih =>
    rw [findClose] at h
    by_cases hc : (c :: rest).take m.length = m
    · rw [if_pos hc] at h
      simp only [Option.some.injEq, Prod.mk.injEq] at h
      obtain ⟨rfl, rfl⟩ := h
      simp only [List.nil_append]
      conv_lhs => rw [← List.take_append_drop m.length (c :: rest)]
      rw [hc]
    · rw [if_neg hc] at h
      cases hf : findClose m rest with
      | none => rw [hf] at h; simp at h
      | some p =>
        obtain ⟨ct, r'⟩ := p
        rw [hf] at h
        simp only [Option.some.injEq, Prod.mk.injEq] at h
        obtain ⟨rfl, rfl⟩ := h
        have := ih ct hf
        simp [this]

theorem findClose_lazy (m : List Char) (l content r : List Char)
    (h : findClose m l = some (content, r)) :
    ∀ k, k < content.length → (l.drop k).take m.length ≠ m := by
  induction l generalizing content with
  | nil => simp [findClose] at h
  | cons c rest ih =>
    rw [findClose] at h
    by_cases hc : (c :: rest).take m.length = m
    · rw [if_pos hc] at h
      simp only [Option.some.injEq, Prod.mk.injEq] at h
      obtain ⟨rfl, rfl⟩ := h
      intro k hk
      simp at hk
    · rw [if_neg hc] at h
      cases hf : findClose m rest with
      | none => rw [hf] at h; simp at h
      | some p =>
        obtain ⟨ct, r'⟩ := p
        rw [hf] at h
        simp only [Option.some.injEq, Prod.mk.injEq] at h
        obtain ⟨rfl, rfl⟩ := h
        intro k hk
        cases k with
        | zero => simpa using hc
        | succ j =>
          have hj : j < ct.length := by simpa using hk
          simpa using ih ct hf j hj

/-- One size of the greedy quote group: `['\"]{1,3}` capturing exactly `n`
characters, followed by the lazy content and the `(?P=quote)` backreference. -/
def tryQuote (n : Nat) (l : List Char) : Option (List Char × List Char × List Char) :=
  let q := l.take n
  if q.length = n && q.all isQuoteChar then
    match findClose q (l.drop n) with
    | some (content, rest) => some (q, content, rest)
    | none => none
  else none

/-- Match `STRING_LITERAL_RE` at the head of `l`.  The greedy quantifier
`{1,3}` first tries to capture three characters, then backtracks to two and
one; for each captured marker the lazy content stops at the first occurrence
of the identical marker.  Returns the captured quote, the captured content
and the remaining input after the closing marker. -/
def matchLit (l : List Char) : Option (List Char × List Char × List Char) :=
  match tryQuote 3 l with
  | some res => some res
  | none =>
    match tryQuote 2 l with
    | some res => some res
    | none => tryQuote 1 l

theorem tryQuote_spec (n : Nat) (l q content r : List Char)
    (h : tryQuote n l = some (q, content, r)) :
    l = q ++ content ++ q ++ r ∧ q.length = n ∧ q.all isQuoteChar = true ∧
    ∀ k, k < content.length → ((content ++ q ++ r).drop k).take q.length ≠ q := by
  rw [tryQuote] at h
  by_cases hcond : (l.take n).length = n && (l.take n).all isQuoteChar
  · rw [if_pos hcond] at h
    simp only [Bool.and_eq_true, decide_eq_true_eq] at hcond
    cases hf : findClose (l.take n) (l.drop n) with
    | none =>
      rw [hf] at h
      simp at h
    | some p =>
      obtain ⟨ct, r'⟩ := p
      rw [hf] at h
      simp only [Option.some.injEq, Prod.mk.injEq] at h
      obtain ⟨rfl, rfl, rfl⟩ := h
      have hdq := findClose_eq _ _ _ _ hf
      refine ⟨?_, hcond.1, hcond.2, ?_⟩
      · conv_lhs => rw [← List.take_append_drop n l]
        rw [hdq]
        simp
      · intro k hk
        have := findClose_lazy _ _ _ _ hf k hk
        rwa [hdq] at this
  · rw [if_neg hcond] at h
    simp at h

theorem matchLit_spec (l q content r : List Char)
    (h : matchLit l = some (q, content, r)) :
    l = q ++ content ++ q ++ r ∧ 1 ≤ q.length ∧ q.length ≤ 3 ∧
    q.all isQuoteChar = true ∧
    ∀ k, k < content.length → ((content ++ q ++ r).drop k).take q.length ≠ q := by
  rw [matchLit] at h
  cases h3 : tryQuote 3 l with
  | some res =>
    rw [h3] at h
    simp only [Option.some.injEq] at h
    subst h
    have := tryQuote_spec 3 l q content r h3
    exact ⟨this.1, by omega, by omega, this.2.2.1, this.2.2.2⟩
  | none =>
    rw [h3] at h
    cases h2 : tryQuote 2 l with
    | some res =>
      rw [h2] at h
      simp only [Option.some.injEq] at h
      subst h
      have := tryQuote_spec 2 l q content r h2
      exact ⟨this.1, by omega, by omega, this.2.2.1, this.2.2.2⟩
    | none =>
      rw [h2] at h
      have := tryQuote_spec 1 l q content r h
      exact ⟨this.1, by omega, by omega, this.2.2.1, this.2.2.2⟩

theorem lazy_truncate (q content r : List Char) (k : Nat) (hk : k < content.length)
    (h : ((content ++ q ++ r).drop k).take q.length ≠ q) :
    ((content ++ q).drop k).take q.length ≠ q := by
  intro heq
  apply h
  have h1 : (content ++ q ++ r).drop k = (content ++ q).drop k ++ r := by
    rw [List.drop_append_eq_append_drop]
    have hz : k - (content ++ q).length = 0 := by
      simp only [List.length_append]
      omega
    rw [hz]
    simp
  rw [h1, List.take_append_eq_append_take]
  have hlen : ((content ++ q).drop k).length = content.length + q.length - k := by
    simp [List.length_drop, List.length_append]
  have hz2 : q.length - ((content ++ q).drop k).length = 0 := by omega
  rw [heq, hz2]
  simp

theorem matchLit_rest_lt (l q content r : List Char)
    (h : matchLit l = some (q, content, r)) : r.length < l.length := by
  obtain ⟨hl, h1, -, -⟩ := matchLit_spec l q content r h
  rw [hl]
  simp only [List.length_append]
  omega

/-- A segment of a code-cell body as processed by `STRING_LITERAL_RE.sub`:
either one character outside every match, or a matched literal (captured
quote marker and captured content). -/
inductive Seg where
  | raw : Char → Seg
  | lit : List Char → List Char → Seg
deriving DecidableEq, Repr

/-- The left-to-right scan performed by `re.sub`: at each position try to
match the pattern; on a match, emit a literal segment and continue after the
closing marker, otherwise keep one character and move on. -/
def scanSegs : List Char → List Seg
  | [] => []
  | c :: rest =>
    match hm : matchLit (c :: rest) with
    | some (q, content, r) => Seg.lit q content :: scanSegs r
    | none => Seg.raw c :: scanSegs rest
termination_by l => l.length
decreasing_by
  · exact matchLit_rest_lt _ _ _ _ hm
  · simp

/-- Reassemble the original text from segments (`match.group(0)` for every
match). -/
def segsOriginal : List Seg → List Char
  | [] => []
  | Seg.raw c :: rest => c :: segsOriginal rest
  | Seg.lit q content :: rest => q ++ content ++ q ++ segsOriginal rest

/-- Reassemble the replaced text: the replacer substitutes
`quote + translated + quote` for contents of length ≥ `minLength` and leaves
shorter matches as `match.group(0)`. -/
def segsNew (tr : String → String) (minLength : Nat) : List Seg → List Char
  | [] => []
  | Seg.raw c :: rest => c :: segsNew tr minLength rest
  | Seg.lit q content :: rest =>
    if minLength ≤ content.length then
      q ++ (tr (String.mk content)).data ++ q ++ segsNew tr minLength rest
    else
      q ++ content ++ q ++ segsNew tr minLength rest

/-- The texts passed to `translator.translate` by the replacer, in match
order: exactly the matched contents of length ≥ `minLength`. -/
def segsCalls (minLength : Nat) : List Seg → List String
  | [] => []
  | Seg.raw _ :: rest => segsCalls minLength rest
  | Seg.lit _ content :: rest =>
    if minLength ≤ content.length then
      String.mk content :: segsCalls minLength rest
    else segsCalls minLength rest

theorem scanSegs_nil : scanSegs [] = [] := by
  rw [scanSegs]

theorem scanSegs_cons (c : Char) (rest : List Char) :
    scanSegs (c :: rest) =
      match matchLit (c :: rest) with
      | some (q, content, r) => Seg.lit q content :: scanSegs r
      | none => Seg.raw c :: scanSegs rest := by
  rw [scanSegs]
  cases hm : matchLit (c :: rest) with
  | some res =>
    obtain ⟨q, content, r⟩ := res
    simp [hm]
  | none => simp [hm]

theorem segsOriginal_scanSegs (l : List Char) : segsOriginal (scanSegs l) = l := by
  have H : ∀ (n : Nat) (l : List Char), l.length ≤ n → segsOriginal (scanSegs l) = l := by
    intro n
    induction n with
    | zero =>
      intro l hl
      have : l = [] := List.length_eq_zero.mp (Nat.le_zero.mp hl)
      subst this
      simp [scanSegs_nil, segsOriginal]
    | succ n ih =>
      intro l hl
      cases l with
      | nil => simp [scanSegs_nil, segsOriginal]
      | cons c rest =>
        rw [scanSegs_cons]
        cases hm : matchLit (c :: rest) with
        | some res =>
          obtain ⟨q, content, r⟩ := res
          obtain ⟨hl2, -, -, -, -⟩ := matchLit_spec _ _ _ _ hm
          have hr : r.length ≤ n := by
            have := matchLit_rest_lt _ _ _ _ hm
            simp only [List.length_cons] at this hl
            omega
          have := ih r hr
          simp only [segsOriginal, this]
          rw [hl2]
        | none =>
          have hr : rest.length ≤ n := by
            simp only [List.length_cons] at hl
            omega
          have := ih rest hr
          simp [segsOriginal, this]
  exact H l.length l le_rfl

theorem scanSegs_lit_mem (l q content : List Char)
    (h : Seg.lit q content ∈ scanSegs l) :
    1 ≤ q.length ∧ q.length ≤ 3 ∧ q.all isQuoteChar = true ∧
    ∀ k, k < content.length → ((content ++ q).drop k).take q.length ≠ q := by
  have H : ∀ (n : Nat) (l : List Char), l.length ≤ n →
      Seg.lit q content ∈ scanSegs l →
      1 ≤ q.length ∧ q.length ≤ 3 ∧ q.all isQuoteChar = true ∧
      ∀ k, k < content.length → ((content ++ q).drop k).take q.length ≠ q := by
    intro n
    induction n with
    | zero =>
      intro l hl hmem
      have : l = [] := List.length_eq_zero.mp (Nat.le_zero.mp hl)
      subst this
      rw [scanSegs_nil] at hmem
      simp at hmem
    | succ n ih =>
      intro l hl hmem
      cases l with
      | nil => rw [scanSegs_nil] at hmem; simp at hmem
      | cons c rest =>
        rw [scanSegs_cons] at hmem
        cases hm : matchLit (c :: rest) with
        | some res =>
          obtain ⟨q', content', r⟩ := res
          rw [hm] at hmem
          simp only [List.mem_cons] at hmem
          cases hmem with
          | inl heq =>
            obtain ⟨rfl, rfl⟩ : q' = q ∧ content' = content := by
              injection heq with h1 h2
              exact ⟨h1.symm, h2.symm⟩
            obtain ⟨-, h1, h3, hq, hlazy⟩ := matchLit_spec _ _ _ _ hm
            refine ⟨h1, h3, hq, ?_⟩
            intro k hk
            exact lazy_truncate _ _ _ _ hk (hlazy k hk)
          | inr hmem2 =>
            have hr : r.length ≤ n := by
              have := matchLit_rest_lt _ _ _ _ hm
              simp only [List.length_cons] at this hl
              omega
            exact ih r hr hmem2
        | none =>
          rw [hm] at hmem
          simp only [List.mem_cons] at hmem
          cases hmem with
          | inl heq => simp at heq
          | inr hmem2 =>
            have hr : rest.length ≤ n := by
              simp only [List.length_cons] at hl
              omega
            exact ih rest hr hmem2
  exact H l.length l le_rfl h

theorem segsCalls_length (minLength : Nat) (segs : List Seg) (t : String)
    (h : t ∈ segsCalls minLength segs) : minLength ≤ t.length := by
  induction segs with
  | nil => simp [segsCalls] at h
  | cons s rest ih =>
    cases s with
    | raw c => exact ih (by simpa [segsCalls] using h)
    | lit q content =>
      rw [segsCalls] at h
      by_cases hlen : minLength ≤ content.length
      · rw [if_pos hlen] at h
        rcases List.mem_cons.mp h with rfl | hmem
        · simpa using hlen
        · exact ih hmem
      · rw [if_neg hlen] at h
        exact ih h

theorem findClose_no_marker (q : Char) (content r : List Char)
    (h : ∀ ch ∈ content, ch ≠ q) :
    findClose [q] (content ++ q :: r) = some (content, r) := by
  induction content with
  | nil =>
    rw [List.nil_append, findClose]
    simp
  | cons c ct ih =>
    have hc : c ≠ q := h c (List.mem_cons_self c ct)
    rw [List.cons_append, findClose]
    rw [if_neg (by simp [hc])]
    rw [ih (fun ch hch => h ch (List.mem_cons_of_mem c hch))]

theorem matchLit_single_literal (content : List Char)
    (h : ∀ ch ∈ content, isQuoteChar ch = false) :
    matchLit ('"' :: (content ++ ['"'])) = some (['"'], content, []) := by
  have hne : ∀ ch ∈ content, ch ≠ '"' := by
    intro ch hch heq
    have := h ch hch
    rw [heq] at this
    simp [isQuoteChar] at this
  have hfc : findClose ['"'] (content ++ '"' :: []) = some (content, []) :=
    findClose_no_marker '"' content [] hne
  have h1 : tryQuote 1 ('"' :: (content ++ ['"'])) = some (['"'], content, []) := by
    rw [tryQuote]
    simp only [List.take_succ_cons, List.take_zero, List.drop_succ_cons, List.drop_zero]
    simp [isQuoteChar, hfc]
  cases content with
  | nil => decide
  | cons c ct =>
    have hc := h c (List.mem_cons_self c ct)
    have h3 : tryQuote 3 ('"' :: ((c :: ct) ++ ['"'])) = none := by
      rw [tryQuote]
      simp [hc]
    have h2 : tryQuote 2 ('"' :: ((c :: ct) ++ ['"'])) = none := by
      rw [tryQuote]
      simp [hc]
    rw [matchLit, h3, h2]
    exact h1

theorem scanSegs_single_literal (content : List Char)
    (h : ∀ ch ∈ content, isQuoteChar ch = false) :
    scanSegs ('"' :: (content ++ ['"'])) = [Seg.lit ['"'] content] := by
  rw [scanSegs_cons, matchLit_single_literal content h]
  simp [scanSegs_nil]

/-- Python line-boundary characters recognised by `str.splitlines`. -/
def isLineBoundary (c : Char) : Bool :=
  c = '\n' || c = '\r' || c = '\x0b' || c = '\x0c' || c = '\x1c' || c = '\x1d' ||
  c = '\x1e' || c = '\x85' || c = ' ' || c = ' '

/-- Python `str.splitlines(keepends=True)`: cut after every line boundary,
treating `"\r\n"` as one boundary, keeping boundary characters; `acc` holds
the reversed pending line. -/
def splitlinesAux (acc : List Char) : List Char → List (List Char)
  | [] => if acc = [] then [] else [acc.reverse]
  | c :: rest =>
    if c = '\r' then
      match rest with
      | d :: rest2 =>
        if d = '\n' then (acc.reverse ++ ['\r', '\n']) :: splitlinesAux [] rest2
        else (acc.reverse ++ ['\r']) :: splitlinesAux [] (d :: rest2)
      | [] => [acc.reverse ++ ['\r']]
    else if isLineBoundary c then
      (acc.reverse ++ [c]) :: splitlinesAux [] rest
    else splitlinesAux (c :: acc) rest

theorem splitlinesAux_flatten (acc : List Char) (l : List Char) :
    (splitlinesAux acc l).flatten = acc.reverse ++ l := by
  induction acc, l using splitlinesAux.induct with
  | case1 => simp [splitlinesAux]
  | case2 acc hne => simp [splitlinesAux, hne]
  | case3 acc rest2 ih => simp [splitlinesAux, ih]
  | case4 acc d rest2 hd ih => simp [splitlinesAux, hd, ih]
  | case5 acc => simp [splitlinesAux]
  | case6 acc c rest hc hb ih =>
    rw [splitlinesAux.eq_def]
    simp [hc, hb, ih]
  | case7 acc c rest hc hb ih =>
    rw [splitlinesAux.eq_def]
    simp [hc, hb, ih]

/-- Model of `new_code_text.splitlines(keepends=True)`. -/
def splitlinesKeepends (l : List Char) : List (List Char) := splitlinesAux [] l

theorem splitlinesKeepends_flatten (l : List Char) : (splitlinesKeepends l).flatten = l := by
  simpa using splitlinesAux_flatten [] l

theorem data_mk (l : List Char) : (String.mk l).data = l := rfl

/-- Python `"".join(fragments)`: concatenation of the source fragments of a cell. -/
def joinSource (source : List String) : String :=
  String.mk ((source.map String.data).flatten)

theorem joinSource_map_mk (ls : List (List Char)) :
    joinSource (ls.map String.mk) = String.mk ls.flatten := by
  have hid : String.data ∘ String.mk = id := funext (fun l => rfl)
  rw [joinSource, List.map_map, hid, List.map_id]

theorem joinSource_singleton (s : String) : joinSource [s] = s := by
  cases s
  simp [joinSource]

/-- Model of `translate_code_cell_source(source, translator, min_length=20)` from
`translate_notebooks2.py` lines 129-147: join the fragments, apply
`STRING_LITERAL_RE.sub(replacer, code_text)` — embedded as segment scanning
followed by per-segment replacement — and split the result back into lines
with `splitlines(keepends=True)`. -/
def translate_code_cell_source (source : List String) (tr : String → String)
    (min_length : Nat) : List String :=
  (splitlinesKeepends (segsNew tr min_length (scanSegs (joinSource source).data))).map
    String.mk

/-- The sequence of texts that `translate_code_cell_source` passes to
`translator.translate`: the replacer invokes the translator exactly on the
matched contents whose length is at least `min_length`, in match order. -/
def code_cell_provider_calls (source : List String) (min_length : Nat) : List String :=
  segsCalls min_length (scanSegs (joinSource source).data)

theorem joinSource_translate_code_cell_source (source : List String)
    (tr : String → String) (min_length : Nat) :
    joinSource (translate_code_cell_source source tr min_length) =
      String.mk (segsNew tr min_length (scanSegs (joinSource source).data)) := by
  rw [translate_code_cell_source, joinSource_map_mk, splitlinesKeepends_flatten]

theorem segsNew_eq_original (tr : String → String) (m : Nat) (segs : List Seg)
    (h : ∀ u ∈ segsCalls m segs, tr u = u) :
    segsNew tr m segs = segsOriginal segs := by
  induction segs with
  | nil => rfl
  | cons s rest ih =>
    cases s with
    | raw c =>
      rw [segsNew, segsOriginal, ih (fun u hu => h u (by simpa [segsCalls] using hu))]
    | lit q content =>
      by_cases hlen : m ≤ content.length
      · have hmem : String.mk content ∈ segsCalls m (Seg.lit q content :: rest) := by
          rw [segsCalls, if_pos hlen]
          exact List.mem_cons_self _ _
        have htr : tr (String.mk content) = String.mk content := h _ hmem
        have hrest : ∀ u ∈ segsCalls m rest, tr u = u := by
          intro u hu
          refine h u ?_
          rw [segsCalls, if_pos hlen]
          exact List.mem_cons_of_mem _ hu
        rw [segsNew, segsOriginal, if_pos hlen, htr, ih hrest]
      · have hrest : ∀ u ∈ segsCalls m rest, tr u = u := by
          intro u hu
          refine h u ?_
          rw [segsCalls, if_neg hlen]
          exact hu
        rw [segsNew, segsOriginal, if_neg hlen, ih hrest]

/-- C5: every text that `translate_code_cell_source` sends to the provider
has length at least `min_length` (so a literal whose content has exactly
`min_length - 1` characters is never sent, and such a cell is reassembled
unchanged), while a literal whose content has exactly `min_length`
characters is sent to the provider. -/
theorem claim_C5 :
    (∀ (source : List String) (min_length : Nat) (t : String),
        t ∈ code_cell_provider_calls source min_length → min_length ≤ t.length) ∧
    (∀ (tr : String → String) (min_length : Nat) (c : List Char),
        1 ≤ min_length → c.length = min_length - 1 →
        (∀ ch ∈ c, isQuoteChar ch = false) →
        code_cell_provider_calls [String.mk ('"' :: (c ++ ['"']))] min_length = [] ∧
        joinSource (translate_code_cell_source [String.mk ('"' :: (c ++ ['"']))] tr
            min_length) = String.mk ('"' :: (c ++ ['"']))) ∧
    (∀ (min_length : Nat) (c : List Char),
        c.length = min_length →
        (∀ ch ∈ c, isQuoteChar ch = false) →
        code_cell_provider_calls [String.mk ('"' :: (c ++ ['"']))] min_length =
          [String.mk c]) := by
  refine ⟨?_, ?_, ?_⟩
  · intro source min_length t ht
    exact segsCalls_length min_length _ t ht
  · intro tr min_length c hm hlen hq
    have hscan : scanSegs (joinSource [String.mk ('"' :: (c ++ ['"']))]).data =
        [Seg.lit ['"'] c] := by
      rw [joinSource_singleton, data_mk]
      exact scanSegs_single_literal c hq
    have hshort : ¬ min_length ≤ c.length := by omega
    constructor
    · rw [code_cell_provider_calls, hscan, segsCalls, if_neg hshort, segsCalls]
    · rw [joinSource_translate_code_cell_source, hscan, segsNew, if_neg hshort, segsNew]
      simp
  · intro min_length c hlen hq
    have hscan : scanSegs (joinSource [String.mk ('"' :: (c ++ ['"']))]).data =
        [Seg.lit ['"'] c] := by
      rw [joinSource_singleton, data_mk]
      exact scanSegs_single_literal c hq
    have hlong : min_length ≤ c.length := by omega
    rw [code_cell_provider_calls, hscan, segsCalls, if_pos hlong, segsCalls]

theorem claim_C5_witness :
    code_cell_provider_calls
        [String.mk ('"' :: ("aaaaaaaaaaaaaaaaaaa".data ++ ['"']))] 20 = [] ∧
    joinSource (translate_code_cell_source
        [String.mk ('"' :: ("aaaaaaaaaaaaaaaaaaa".data ++ ['"']))] (fun _ => "X") 20) =
      String.mk ('"' :: ("aaaaaaaaaaaaaaaaaaa".data ++ ['"'])) ∧
    code_cell_provider_calls
        [String.mk ('"' :: ("aaaaaaaaaaaaaaaaaaaa".data ++ ['"']))] 20 =
      [String.mk "aaaaaaaaaaaaaaaaaaaa".data] ∧
    20 ≤ (String.mk "aaaaaaaaaaaaaaaaaaaa".data).length := by
  have h2 := claim_C5.2.1 (fun _ => "X") 20 "aaaaaaaaaaaaaaaaaaa".data
    (by decide) (by decide) (by decide)
  have h3 := claim_C5.2.2 20 "aaaaaaaaaaaaaaaaaaaa".data (by decide) (by decide)
  refine ⟨h2.1, h2.2, h3, ?_⟩
  refine claim_C5.1 [String.mk ('"' :: ("aaaaaaaaaaaaaaaaaaaa".data ++ ['"']))] 20
    (String.mk "aaaaaaaaaaaaaaaaaaaa".data) ?_
  rw [h3]
  exact List.mem_cons_self _ _

/-- C9: the scan decomposes a code body into raw characters and literal
spans, where every span is opened and closed by the identical captured
marker of one to three quote characters; the content is the shortest match
(the marker never occurs at an earlier position of `content ++ marker`); a
span opened with a single quote and closed with a double quote never
matches; content may contain a line break. -/
theorem claim_C9 (s : List Char) :
    segsOriginal (scanSegs s) = s ∧
    (∀ q content, Seg.lit q content ∈ scanSegs s →
      1 ≤ q.length ∧ q.length ≤ 3 ∧ q.all isQuoteChar = true ∧
      ∀ k, k < content.length → ((content ++ q).drop k).take q.length ≠ q) ∧
    matchLit ('\'' :: ("abcdefgh".data ++ ['"'])) = none ∧
    scanSegs ('"' :: ("ab\ncd".data ++ ['"'])) = [Seg.lit ['"'] "ab\ncd".data] ∧
    '\n' ∈ "ab\ncd".data := by
  refine ⟨segsOriginal_scanSegs s, ?_, by decide,
    scanSegs_single_literal _ (by decide), by decide⟩
  intro q content hmem
  exact scanSegs_lit_mem s q content hmem

theorem claim_C9_witness :
    Seg.lit ['"'] "ab\ncd".data ∈ scanSegs ('"' :: ("ab\ncd".data ++ ['"'])) ∧
    (['"'] : List Char).all isQuoteChar = true ∧
    (("ab\ncd".data ++ ['"']).drop 0).take (['"'] : List Char).length ≠ ['"'] := by
  have h := claim_C9 ('"' :: ("ab\ncd".data ++ ['"']))
  have hmem : Seg.lit ['"'] "ab\ncd".data ∈ scanSegs ('"' :: ("ab\ncd".data ++ ['"'])) := by
    rw [h.2.2.2.1]
    exact List.mem_cons_self _ _
  have hspec := h.2.1 ['"'] "ab\ncd".data hmem
  exact ⟨hmem, hspec.2.2.1, hspec.2.2.2 0 (by decide)⟩

/-- Model of `os.path.split(p)` for POSIX paths: split after the last slash; the head
keeps its trailing slashes only when it is empty or consists of slashes
alone (`posixpath.split`: `head = head.rstrip('/')` unless `head` is empty
or all slashes). -/
def os_path_split (p : List Char) : List Char × List Char :=
  let tl := (p.reverse.takeWhile (fun c => c ≠ '/')).reverse
  let hd := (p.reverse.dropWhile (fun c => c ≠ '/')).reverse
  if hd ≠ [] ∧ ¬ hd.all (fun c => c = '/') then
    ((hd.reverse.dropWhile (fun c => c = '/')).reverse, tl)
  else (hd, tl)

/-- Model of `os.path.join(a, b)` for POSIX paths with one extra component, as the
scripts use it: `b` replaces everything when absolute; otherwise it is
appended, with a separating `'/'` unless `a` is empty or ends in `'/'`. -/
def os_path_join (a b : List Char) : List Char :=
  if b.take 1 = ['/'] then b
  else if a = [] ∨ a.getLast? = some '/' then a ++ b
  else a ++ '/' :: b

/-- Default output-path derivation shared by the three scripts:
`dirname, filename = os.path.split(input_path)` followed by
`os.path.join(dirname, marker + filename)`, where `marker` is the fixed
filename marker (`"jp_"` in `translate_notebooks2.py`, `"translated_"` in
the other two scripts). -/
def derive_output_path (marker : List Char) (input_path : List Char) : List Char :=
  os_path_join (os_path_split input_path).1 (marker ++ (os_path_split input_path).2)

theorem dropWhile_head_false (pred : Char → Bool) (l : List Char) (c : Char)
    (rest : List Char) (h : l.dropWhile pred = c :: rest) : pred c = false := by
  induction l with
  | nil => simp [List.dropWhile] at h
  | cons x xs ih =>
    rw [List.dropWhile_cons] at h
    by_cases hx : pred x
    · rw [if_pos hx] at h
      exact ih h
    · rw [if_neg hx] at h
      injection h with h1 h2
      subst h1
      simpa using hx

/-- The split head, some run of slashes, and the split tail partition the
input path; the head either may absorb `b` directly in `os.path.join` (it is
empty or ends in a slash, and then the slash run is empty) or it is nonempty
with no trailing slash and at least one slash was stripped. -/
theorem os_path_split_spec (p : List Char) :
    ∃ k, p = (os_path_split p).1 ++ (List.replicate k '/' ++ (os_path_split p).2) ∧
      ((((os_path_split p).1 = [] ∨ (os_path_split p).1.getLast? = some '/') ∧ k = 0) ∨
       ((os_path_split p).1 ≠ [] ∧ (os_path_split p).1.getLast? ≠ some '/' ∧ 1 ≤ k)) := by
  have hsplitp : p = (p.reverse.dropWhile (fun c => c ≠ '/')).reverse ++
      (p.reverse.takeWhile (fun c => c ≠ '/')).reverse := by
    have h := List.takeWhile_append_dropWhile (fun c => decide (c ≠ '/')) p.reverse
    calc p = p.reverse.reverse := (List.reverse_reverse p).symm
    _ = ((p.reverse.takeWhile (fun c => c ≠ '/')) ++
        (p.reverse.dropWhile (fun c => c ≠ '/'))).reverse := by rw [h]
    _ = _ := by rw [List.reverse_append]
  by_cases hcond : (p.reverse.dropWhile (fun c => c ≠ '/')).reverse ≠ [] ∧
      ¬ (p.reverse.dropWhile (fun c => c ≠ '/')).reverse.all (fun c => c = '/')
  · have hsplit : os_path_split p =
        (((p.reverse.dropWhile (fun c => c ≠ '/')).dropWhile (fun c => c = '/')).reverse,
          (p.reverse.takeWhile (fun c => c ≠ '/')).reverse) := by
      simp only [os_path_split]
      rw [if_pos hcond, List.reverse_reverse]
    set hdRev := p.reverse.dropWhile (fun c => c ≠ '/') with hhdRev
    set strippedRev := hdRev.dropWhile (fun c => c = '/') with hstrippedRev
    set slashesRev := hdRev.takeWhile (fun c => c = '/') with hslashesRev
    refine ⟨slashesRev.length, ?_, Or.inr ⟨?_, ?_, ?_⟩⟩
    · -- decomposition
      have hdec : hdRev = slashesRev ++ strippedRev :=
        (List.takeWhile_append_dropWhile _ _).symm
      have hslashrep : slashesRev = List.replicate slashesRev.length '/' := by
        rw [List.eq_replicate_iff]
        refine ⟨rfl, ?_⟩
        intro b hb
        have := List.mem_takeWhile_imp (hslashesRev ▸ hb)
        simpa using this
      rw [hsplit]
      conv_lhs => rw [hsplitp, hdec]
      rw [List.reverse_append]
      simp only [List.append_assoc]
      congr 1
      congr 1
      rw [← List.reverse_replicate, hslashrep]
      simp
    · -- stripped head nonempty
      intro hnil
      rw [hsplit] at hnil
      simp only at hnil
      apply hcond.2
      have hsrevnil : strippedRev = [] := by
        have := congrArg List.reverse hnil
        simpa using this
      have hdec : hdRev = slashesRev ++ strippedRev :=
        (List.takeWhile_append_dropWhile _ _).symm
      rw [hsrevnil, List.append_nil] at hdec
      rw [hdec]
      rw [List.all_eq_true]
      intro b hb
      have hmem : b ∈ slashesRev := List.mem_reverse.mp hb
      have := List.mem_takeWhile_imp (hslashesRev ▸ hmem)
      simpa using this
    · -- stripped head has no trailing slash
      rw [hsplit]
      simp only
      cases hx : strippedRev with
      | nil => simp
      | cons c rest =>
        have hcns : ¬ c = '/' := by
          have := dropWhile_head_false _ _ _ _ (hstrippedRev.symm.trans hx)
          simpa using this
        rw [List.getLast?_reverse]
        simpa using hcns
    · -- at least one slash was stripped
      have hdne : hdRev ≠ [] := by
        intro h
        apply hcond.1
        rw [h]
        rfl
      obtain ⟨c, rest, hc⟩ := List.exists_cons_of_ne_nil hdne
      have hcslash : c = '/' := by
        have := dropWhile_head_false _ _ _ _ (hhdRev.symm.trans hc)
        simpa using this
      rw [hslashesRev, hc, List.takeWhile_cons, hcslash]
      simp
  · have hsplit : os_path_split p =
        ((p.reverse.dropWhile (fun c => c ≠ '/')).reverse,
          (p.reverse.takeWhile (fun c => c ≠ '/')).reverse) := by
      simp only [os_path_split]
      rw [if_neg hcond]
    refine ⟨0, ?_, Or.inl ⟨?_, rfl⟩⟩
    · rw [hsplit]
      simpa using hsplitp
    · rw [hsplit]
      simp only
      by_cases hnil : (p.reverse.dropWhile (fun c => c ≠ '/')).reverse = []
      · exact Or.inl hnil
      · refine Or.inr ?_
        have hall : (p.reverse.dropWhile (fun c => c ≠ '/')).reverse.all
            (fun c => c = '/') := by
          by_contra hno
          exact hcond ⟨hnil, hno⟩
        obtain ⟨c, rest, hc⟩ : ∃ c rest,
            (p.reverse.dropWhile (fun c => c ≠ '/')).reverse = c :: rest := by
          cases hx : (p.reverse.dropWhile (fun c => c ≠ '/')).reverse with
          | nil => exact absurd hx hnil
          | cons a b => exact ⟨a, b, rfl⟩
        rw [hc]
        have hlast : (c :: rest).getLast (by simp) = '/' := by
          have hmem := List.getLast_mem (l := c :: rest) (by simp)
          have := List.all_eq_true.mp (hc ▸ hall) _ hmem
          simpa using this
        rw [List.getLast?_eq_getLast _ (by simp), hlast]

theorem derive_output_path_ne (marker p : List Char) (hne : marker ≠ [])
    (hhead : marker.head? ≠ some '/') :
    derive_output_path marker p ≠ p := by
  obtain ⟨m0, ms, rfl⟩ : ∃ m0 ms, marker = m0 :: ms := by
    cases marker with
    | nil => exact absurd rfl hne
    | cons a b => exact ⟨a, b, rfl⟩
  have hm0 : m0 ≠ '/' := by
    intro h
    subst h
    simp at hhead
  obtain ⟨k, hp, hcase⟩ := os_path_split_spec p
  rw [derive_output_path, os_path_join]
  rw [if_neg (by simp [hm0])]
  rcases hcase with ⟨hjoin, hk0⟩ | ⟨hne2, hlast, hk1⟩
  · rw [if_pos hjoin]
    subst hk0
    conv_rhs => rw [hp]
    simp only [List.replicate_zero, List.nil_append]
    intro heq
    have h2 := List.append_cancel_left heq
    have hlen := congrArg List.length h2
    rw [List.length_append] at hlen
    simp at hlen
  · rw [if_neg (by push_neg; exact ⟨hne2, hlast⟩)]
    conv_rhs => rw [hp]
    intro heq
    have h2 := List.append_cancel_left heq
    obtain ⟨n, hn⟩ : ∃ n, k = n + 1 := ⟨k - 1, by omega⟩
    rw [hn, List.replicate_succ, List.cons_append] at h2
    injection h2 with h3 h4
    rw [← List.cons_append] at h4
    have h5 := List.append_cancel_right h4
    have hmem : m0 ∈ List.replicate n '/' := by
      rw [← h5]
      exact List.mem_cons_self _ _
    exact hm0 (List.eq_of_mem_replicate hmem)

/-- A notebook cell: its `cell_type`, its `source` fragment list, and all
remaining cell fields (metadata, outputs, ...), which the scripts never
touch, abstracted as an opaque `extra` component that `json.load` /
`json.dump` round-trip. -/
structure Cell where
  cell_type : String
  source : List String
  extra : String
deriving DecidableEq, Repr

/-- A parsed notebook: the `cells` array plus all other top-level fields
(`metadata`, `nbformat`, ...), abstracted as an opaque `extra` component
that is round-tripped unchanged. -/
structure Notebook where
  cells : List Cell
  extra : String
deriving DecidableEq, Repr

/-- Result of processing one document: the in-memory notebook after the
walk; `written = some (path, doc)` when the output file was successfully
written; `writeError = true` when the write raised and the exception was
caught and logged inside the function. -/
structure WalkResult where
  notebook : Notebook
  written : Option (List Char × Notebook)
  writeError : Bool
deriving DecidableEq, Repr

/-- One iteration of the cell loop in `translate_notebook_cells`
(`translate_notebooks2.py` lines 162-175): a markdown body is translated as
one unit and collapsed to the single fragment `[translated_text]` when the
translation changed it; a code cell is processed by
`translate_code_cell_source` when `translate_code` is enabled and replaced
when the joined text changed; every other cell is untouched.  Returns the
resulting cell and whether this cell set `translated_any`. -/
def processCell (tr : String → String) (translate_code : Bool) (c : Cell) :
    Cell × Bool :=
  if c.cell_type = "markdown" then
    let original_text := joinSource c.source
    let translated_text := tr original_text
    if translated_text ≠ original_text then
      ({ c with source := [translated_text] }, true)
    else (c, false)
  else if c.cell_type = "code" ∧ translate_code then
    let new_source := translate_code_cell_source c.source tr 20
    if joinSource new_source ≠ joinSource c.source then
      ({ c with source := new_source }, true)
    else (c, false)
  else (c, false)

/-- Model of `translate_notebook_cells(input_path, translator, translate_code,
output_path)` from `translate_notebooks2.py` lines 152-189, after a
successful `json.load`.  `tr` is `translator.translate`; `writeOk` says
whether the `open`/`json.dump` of the output file would succeed.  The write
is attempted only when some cell changed, and a write failure is caught by
the surrounding `try/except` and only logged (`writeError`), so the
function always returns normally. -/
def translate_notebook_cells (input_path : List Char) (nb : Notebook)
    (tr : String → String) (translate_code : Bool)
    (output_path : Option (List Char)) (writeOk : Bool) : WalkResult :=
  let step := nb.cells.map (processCell tr translate_code)
  let translated_any := step.any Prod.snd
  let nb' : Notebook := { nb with cells := step.map Prod.fst }
  let out := output_path.getD (derive_output_path "jp_".data input_path)
  if translated_any then
    if writeOk then ⟨nb', some (out, nb'), false⟩
    else ⟨nb', none, true⟩
  else ⟨nb', none, false⟩

/-- One iteration of the markdown loop in `translate_markdown_cells`
(`translate_notebooks.py` lines 98-109): the source of every markdown cell
is replaced by the single-fragment list `[translated_text]`, whether or not
the translation changed it; `translated_any` is set only when it changed. -/
def TranslateNotebooks.processCell (tr : String → String) (c : Cell) :
    Cell × Bool :=
  if c.cell_type = "markdown" then
    let original_text := joinSource c.source
    let translated_text := tr original_text
    ({ c with source := [translated_text] }, decide (translated_text ≠ original_text))
  else (c, false)

/-- Model of `translate_markdown_cells(input_path, output_path)` from
`translate_notebooks.py` lines 77-123 after a successful `json.load`; the
write is wrapped in `try/except` exactly as in `translate_notebook_cells`,
and the default filename marker is `"translated_"`. -/
def TranslateNotebooks.translate_markdown_cells (input_path : List Char)
    (nb : Notebook) (tr : String → String) (output_path : Option (List Char))
    (writeOk : Bool) : WalkResult :=
  let step := nb.cells.map (TranslateNotebooks.processCell tr)
  let translated_any := step.any Prod.snd
  let nb' : Notebook := { nb with cells := step.map Prod.fst }
  let out := output_path.getD (derive_output_path "translated_".data input_path)
  if translated_any then
    if writeOk then ⟨nb', some (out, nb'), false⟩
    else ⟨nb', none, true⟩
  else ⟨nb', none, false⟩

/-- One iteration of the markdown loop in `translate_markdown_cells`
(`translate_notebooks_gcloud.py` lines 71-78): like
`translate_notebooks2.py`, the source is collapsed to a single fragment only
when the translation changed it. -/
def Gcloud.processCell (tr : String → String) (c : Cell) : Cell × Bool :=
  if c.cell_type = "markdown" then
    let original_text := joinSource c.source
    let translated_text := tr original_text
    if translated_text ≠ original_text then
      ({ c with source := [translated_text] }, true)
    else (c, false)
  else (c, false)

/-- Model of `translate_markdown_cells(input_path, output_path)` from
`translate_notebooks_gcloud.py` lines 58-89 after a successful `json.load`.
Unlike the other two scripts the `open`/`json.dump` of the output file is
not wrapped in `try/except`, so a failing write raises out of the function:
the result is `Except.error ()` when a changed document must be written and
the write fails. -/
def Gcloud.translate_markdown_cells (input_path : List Char) (nb : Notebook)
    (tr : String → String) (output_path : Option (List Char)) (writeOk : Bool) :
    Except Unit WalkResult :=
  let step := nb.cells.map (Gcloud.processCell tr)
  let translated_any := step.any Prod.snd
  let nb' : Notebook := { nb with cells := step.map Prod.fst }
  let out := output_path.getD (derive_output_path "translated_".data input_path)
  if translated_any then
    if writeOk then Except.ok ⟨nb', some (out, nb'), false⟩
    else Except.error ()
  else Except.ok ⟨nb', none, false⟩

/-- One document of a batch: its path, its parsed notebook, and whether
writing its output file would succeed. -/
structure Doc where
  path : List Char
  nb : Notebook
  writeOk : Bool
deriving DecidableEq, Repr

/-- Model of `translate_notebooks_in_directory(directory, translator, translate_code)`
from `translate_notebooks2.py` lines 191-200: the loop body never raises, so
every document of the directory is processed. -/
def translate_notebooks_in_directory (docs : List Doc) (tr : String → String)
    (translate_code : Bool) : List WalkResult :=
  docs.map (fun d => translate_notebook_cells d.path d.nb tr translate_code none d.writeOk)

/-- Model of `translate_notebooks_in_directory(directory)` from
`translate_notebooks.py` lines 125-140: the loop body never raises. -/
def TranslateNotebooks.translate_notebooks_in_directory (docs : List Doc)
    (tr : String → String) : List WalkResult :=
  docs.map (fun d => TranslateNotebooks.translate_markdown_cells d.path d.nb tr none d.writeOk)

/-- The loop of `translate_notebooks_in_directory` in
`translate_notebooks_gcloud.py` lines 91-103: the per-document call is not
protected, so an exception escaping one document aborts the loop.  The flag
is true when the batch was aborted; the list holds the results of the
documents processed before the abort. -/
def Gcloud.translate_notebooks_in_directory (docs : List Doc)
    (tr : String → String) : List WalkResult × Bool :=
  match docs with
  | [] => ([], false)
  | d :: rest =>
    match Gcloud.translate_markdown_cells d.path d.nb tr none d.writeOk with
    | Except.ok r =>
      let p := Gcloud.translate_notebooks_in_directory rest tr
      (r :: p.1, p.2)
    | Except.error _ => ([], true)

/-- The translation units of one cell: the whole joined body of a markdown
cell; the matched long-enough literal contents of a code cell when code
translation is enabled; nothing otherwise. -/
def cellUnits (translate_code : Bool) (c : Cell) : List String :=
  if c.cell_type = "markdown" then [joinSource c.source]
  else if c.cell_type = "code" ∧ translate_code then
    code_cell_provider_calls c.source 20
  else []

/-- All translation units of a document, in document order. -/
def notebookUnits (nb : Notebook) (translate_code : Bool) : List String :=
  (nb.cells.map (cellUnits translate_code)).flatten

theorem mk_data (s : String) : String.mk s.data = s := rfl

theorem processCell_unchanged (tr : String → String) (tc : Bool) (c : Cell)
    (h : ∀ u ∈ cellUnits tc c, tr u = u) : processCell tr tc c = (c, false) := by
  rw [processCell]
  by_cases hmd : c.cell_type = "markdown"
  · rw [if_pos hmd]
    have hb : tr (joinSource c.source) = joinSource c.source := by
      apply h
      rw [cellUnits, if_pos hmd]
      exact List.mem_cons_self _ _
    simp [hb]
  · rw [if_neg hmd]
    by_cases hcode : c.cell_type = "code" ∧ tc = true
    · rw [if_pos hcode]
      have hcalls : ∀ u ∈ code_cell_provider_calls c.source 20, tr u = u := by
        intro u hu
        apply h
        rw [cellUnits, if_neg hmd, if_pos hcode]
        exact hu
      have hnew : joinSource (translate_code_cell_source c.source tr 20) =
          joinSource c.source := by
        rw [joinSource_translate_code_cell_source]
        rw [segsNew_eq_original tr 20 _ hcalls]
        rw [segsOriginal_scanSegs, mk_data]
      simp [hnew]
    · rw [if_neg hcode]

theorem TranslateNotebooks.processCell_snd_false (tr : String → String) (c : Cell)
    (h : ∀ u ∈ cellUnits false c, tr u = u) :
    (TranslateNotebooks.processCell tr c).2 = false := by
  rw [TranslateNotebooks.processCell]
  by_cases hmd : c.cell_type = "markdown"
  · rw [if_pos hmd]
    have hb : tr (joinSource c.source) = joinSource c.source := by
      apply h
      rw [cellUnits, if_pos hmd]
      exact List.mem_cons_self _ _
    simp [hb]
  · rw [if_neg hmd]

theorem translate_notebook_cells_no_change (input_path : List Char) (nb : Notebook)
    (tr : String → String) (tc : Bool) (op : Option (List Char)) (w : Bool)
    (h : (nb.cells.map (processCell tr tc)).any Prod.snd = false) :
    translate_notebook_cells input_path nb tr tc op w =
      ⟨{ nb with cells := (nb.cells.map (processCell tr tc)).map Prod.fst },
        none, false⟩ := by
  rw [translate_notebook_cells]
  simp [h]

theorem TranslateNotebooks.translate_markdown_cells_no_change (input_path : List Char)
    (nb : Notebook) (tr : String → String) (op : Option (List Char)) (w : Bool)
    (h : (nb.cells.map (TranslateNotebooks.processCell tr)).any Prod.snd = false) :
    TranslateNotebooks.translate_markdown_cells input_path nb tr op w =
      ⟨{ nb with cells := (nb.cells.map (TranslateNotebooks.processCell tr)).map Prod.fst },
        none, false⟩ := by
  rw [TranslateNotebooks.translate_markdown_cells]
  simp [h]

/-- C2: when the translation result of no unit differs from its original text —
in particular when the backend returns every input unchanged — no output
file is written (no write is even attempted), both by
`translate_notebook_cells` of `translate_notebooks2.py` and by
`translate_markdown_cells` of `translate_notebooks.py`. -/
theorem claim_C2 (nb : Notebook) (tr : String → String) (translate_code : Bool)
    (input_path : List Char) (output_path : Option (List Char)) (writeOk : Bool)
    (h : ∀ u ∈ notebookUnits nb translate_code, tr u = u) :
    (translate_notebook_cells input_path nb tr translate_code output_path
        writeOk).written = none ∧
    (translate_notebook_cells input_path nb tr translate_code output_path
        writeOk).writeError = false ∧
    (TranslateNotebooks.translate_markdown_cells input_path nb tr output_path
        writeOk).written = none ∧
    (TranslateNotebooks.translate_markdown_cells input_path nb tr output_path
        writeOk).writeError = false := by
  have hcell : ∀ c ∈ nb.cells, ∀ u ∈ cellUnits translate_code c, tr u = u := by
    intro c hc u hu
    apply h
    rw [notebookUnits, List.mem_flatten]
    exact ⟨cellUnits translate_code c, List.mem_map.mpr ⟨c, hc, rfl⟩, hu⟩
  have hany : (nb.cells.map (processCell tr translate_code)).any Prod.snd = false := by
    rw [List.any_eq_false]
    intro x hx
    obtain ⟨c, hc, rfl⟩ := List.mem_map.mp hx
    rw [processCell_unchanged tr translate_code c (hcell c hc)]
    simp
  have hmdunits : ∀ c ∈ nb.cells, ∀ u ∈ cellUnits false c, tr u = u := by
    intro c hc u hu
    apply hcell c hc
    rw [cellUnits] at hu ⊢
    by_cases hmd : c.cell_type = "markdown"
    · rw [if_pos hmd] at hu ⊢
      exact hu
    · rw [if_neg hmd] at hu
      rw [if_neg (by simp)] at hu
      simp at hu
  have hany2 : (nb.cells.map (TranslateNotebooks.processCell tr)).any Prod.snd
      = false := by
    rw [List.any_eq_false]
    intro x hx
    obtain ⟨c, hc, rfl⟩ := List.mem_map.mp hx
    rw [TranslateNotebooks.processCell_snd_false tr c (hmdunits c hc)]
    simp
  rw [translate_notebook_cells_no_change _ _ _ _ _ _ hany,
    TranslateNotebooks.translate_markdown_cells_no_change _ _ _ _ _ hany2]
  exact ⟨rfl, rfl, rfl, rfl⟩

theorem claim_C2_witness :
    (translate_notebook_cells "a.ipynb".data
        ⟨[⟨"markdown", ["hello"], ""⟩], ""⟩ (fun s => s) false none true).written
      = none ∧
    (translate_notebook_cells "a.ipynb".data
        ⟨[⟨"markdown", ["hello"], ""⟩], ""⟩ (fun s => s) false none true).writeError
      = false ∧
    (TranslateNotebooks.translate_markdown_cells "a.ipynb".data
        ⟨[⟨"markdown", ["hello"], ""⟩], ""⟩ (fun s => s) none true).written = none ∧
    (TranslateNotebooks.translate_markdown_cells "a.ipynb".data
        ⟨[⟨"markdown", ["hello"], ""⟩], ""⟩ (fun s => s) none true).writeError
      = false :=
  claim_C2 ⟨[⟨"markdown", ["hello"], ""⟩], ""⟩ (fun s => s) false "a.ipynb".data
    none true (fun u _ => rfl)

theorem translate_notebook_cells_notebook (input_path : List Char) (nb : Notebook)
    (tr : String → String) (tc : Bool) (op : Option (List Char)) (w : Bool) :
    (translate_notebook_cells input_path nb tr tc op w).notebook =
      { nb with cells := (nb.cells.map (processCell tr tc)).map Prod.fst } := by
  rw [translate_notebook_cells]
  split
  · split <;> rfl
  · rfl

theorem translate_notebook_cells_length (input_path : List Char) (nb : Notebook)
    (tr : String → String) (tc : Bool) (op : Option (List Char)) (w : Bool) :
    (translate_notebook_cells input_path nb tr tc op w).notebook.cells.length =
      nb.cells.length := by
  rw [translate_notebook_cells_notebook]
  simp

theorem translate_notebook_cells_get (input_path : List Char) (nb : Notebook)
    (tr : String → String) (tc : Bool) (op : Option (List Char)) (w : Bool)
    (i : Nat) (h1 : i < nb.cells.length)
    (h2 : i < (translate_notebook_cells input_path nb tr tc op w).notebook.cells.length) :
    (translate_notebook_cells input_path nb tr tc op w).notebook.cells.get ⟨i, h2⟩ =
      (processCell tr tc (nb.cells.get ⟨i, h1⟩)).1 := by
  have hnb := translate_notebook_cells_notebook input_path nb tr tc op w
  simp [List.get_eq_getElem, hnb, List.getElem_map]

theorem translate_notebook_cells_written (input_path : List Char) (nb : Notebook)
    (tr : String → String) (tc : Bool) (op : Option (List Char)) (w : Bool)
    (p : List Char) (d : Notebook)
    (h : (translate_notebook_cells input_path nb tr tc op w).written = some (p, d)) :
    p = op.getD (derive_output_path "jp_".data input_path) ∧
    d = (translate_notebook_cells input_path nb tr tc op w).notebook := by
  rw [translate_notebook_cells_notebook]
  rw [translate_notebook_cells] at h
  split at h
  · split at h
    · simp only [Option.some.injEq, Prod.mk.injEq] at h
      exact ⟨h.1.symm, h.2.symm⟩
    · simp at h
  · simp at h

theorem processCell_spec (tr : String → String) (tc : Bool) (c : Cell) :
    (processCell tr tc c).1.cell_type = c.cell_type ∧
    (processCell tr tc c).1.extra = c.extra ∧
    (c.cell_type ≠ "markdown" → c.cell_type ≠ "code" → (processCell tr tc c).1 = c) ∧
    (c.cell_type = "code" → tc = false → (processCell tr tc c).1 = c) ∧
    (c.cell_type = "code" → tc = true →
      (joinSource c.source).data = segsOriginal (scanSegs (joinSource c.source).data) ∧
      (joinSource (processCell tr tc c).1.source).data =
        segsNew tr 20 (scanSegs (joinSource c.source).data)) := by
  rw [processCell]
  by_cases hmd : c.cell_type = "markdown"
  · rw [if_pos hmd]
    by_cases hch : tr (joinSource c.source) ≠ joinSource c.source
    · rw [if_pos hch]
      refine ⟨rfl, rfl, ?_, ?_, ?_⟩
      · intro hnot
        exact absurd hmd hnot
      · intro hc
        rw [hmd] at hc
        exact absurd hc.symm (by decide)
      · intro hc
        rw [hmd] at hc
        exact absurd hc.symm (by decide)
    · rw [if_neg hch]
      refine ⟨rfl, rfl, fun _ _ => rfl, fun _ _ => rfl, ?_⟩
      intro hc
      rw [hmd] at hc
      exact absurd hc.symm (by decide)
  · rw [if_neg hmd]
    by_cases hcode : c.cell_type = "code" ∧ tc = true
    · rw [if_pos hcode]
      by_cases hch : joinSource (translate_code_cell_source c.source tr 20) ≠
          joinSource c.source
      · rw [if_pos hch]
        refine ⟨rfl, rfl, ?_, ?_, ?_⟩
        · intro _ hnot
          exact absurd hcode.1 hnot
        · intro _ htc
          exact absurd (hcode.2.symm.trans htc) (by decide)
        · intro _ _
          constructor
          · rw [segsOriginal_scanSegs]
          · have := joinSource_translate_code_cell_source c.source tr 20
            simp only [this, data_mk]
      · rw [if_neg hch]
        refine ⟨rfl, rfl, ?_, ?_, ?_⟩
        · intro _ hnot
          exact absurd hcode.1 hnot
        · intro _ htc
          exact absurd (hcode.2.symm.trans htc) (by decide)
        · intro _ _
          have hcheq : joinSource (translate_code_cell_source c.source tr 20) =
              joinSource c.source := not_not.mp hch
          constructor
          · rw [segsOriginal_scanSegs]
          · show (joinSource c.source).data = _
            conv_lhs => rw [← hcheq]
            rw [joinSource_translate_code_cell_source, data_mk]
    · rw [if_neg hcode]
      refine ⟨rfl, rfl, fun _ _ => rfl, fun _ _ => rfl, ?_⟩
      intro hc htc
      exact absurd ⟨hc, htc⟩ hcode

/-- C3: in `translate_notebook_cells` every piece of content not eligible
for translation is preserved: the document metadata, the number and order of
cells, the type and extra fields of each cell, every cell that is neither
markdown nor code, every code cell when code translation is disabled; and a
code cell processed with code translation enabled changes only inside
matched literal spans — its original joined body is the reassembly
`segsOriginal` of the scan and the output body is the reassembly `segsNew`
of the same segments, which agree outside matched literals.  The written
document, when any, is exactly the processed notebook. -/
theorem claim_C3 (nb : Notebook) (tr : String → String) (translate_code : Bool)
    (input_path : List Char) (output_path : Option (List Char)) (writeOk : Bool) :
    (translate_notebook_cells input_path nb tr translate_code output_path
        writeOk).notebook.extra = nb.extra ∧
    (translate_notebook_cells input_path nb tr translate_code output_path
        writeOk).notebook.cells.length = nb.cells.length ∧
    (∀ p d, (translate_notebook_cells input_path nb tr translate_code output_path
        writeOk).written = some (p, d) →
      d = (translate_notebook_cells input_path nb tr translate_code output_path
        writeOk).notebook) ∧
    (∀ i, (h1 : i < nb.cells.length) →
      (h2 : i < (translate_notebook_cells input_path nb tr translate_code output_path
        writeOk).notebook.cells.length) →
      ((translate_notebook_cells input_path nb tr translate_code output_path
          writeOk).notebook.cells.get ⟨i, h2⟩).cell_type =
        (nb.cells.get ⟨i, h1⟩).cell_type ∧
      ((translate_notebook_cells input_path nb tr translate_code output_path
          writeOk).notebook.cells.get ⟨i, h2⟩).extra = (nb.cells.get ⟨i, h1⟩).extra ∧
      ((nb.cells.get ⟨i, h1⟩).cell_type ≠ "markdown" →
        (nb.cells.get ⟨i, h1⟩).cell_type ≠ "code" →
        (translate_notebook_cells input_path nb tr translate_code output_path
          writeOk).notebook.cells.get ⟨i, h2⟩ = nb.cells.get ⟨i, h1⟩) ∧
      ((nb.cells.get ⟨i, h1⟩).cell_type = "code" → translate_code = false →
        (translate_notebook_cells input_path nb tr translate_code output_path
          writeOk).notebook.cells.get ⟨i, h2⟩ = nb.cells.get ⟨i, h1⟩) ∧
      ((nb.cells.get ⟨i, h1⟩).cell_type = "code" → translate_code = true →
        (joinSource (nb.cells.get ⟨i, h1⟩).source).data =
          segsOriginal (scanSegs (joinSource (nb.cells.get ⟨i, h1⟩).source).data) ∧
        (joinSource ((translate_notebook_cells input_path nb tr translate_code
            output_path writeOk).notebook.cells.get ⟨i, h2⟩).source).data =
          segsNew tr 20 (scanSegs (joinSource (nb.cells.get ⟨i, h1⟩).source).data))) := by
  refine ⟨?_, translate_notebook_cells_length _ _ _ _ _ _, ?_, ?_⟩
  · rw [translate_notebook_cells_notebook]
  · intro p d hw
    exact (translate_notebook_cells_written _ _ _ _ _ _ _ _ hw).2
  · intro i h1 h2
    rw [translate_notebook_cells_get input_path nb tr translate_code output_path
      writeOk i h1 h2]
    exact processCell_spec tr translate_code (nb.cells.get ⟨i, h1⟩)

theorem claim_C3_witness :
    ((translate_notebook_cells "a.ipynb".data ⟨[⟨"raw", ["z"], "e"⟩], "m"⟩
        (fun _ => "X") true none true).notebook.cells.get
      ⟨0, by decide⟩) = ⟨"raw", ["z"], "e"⟩ := by
  have h := claim_C3 ⟨[⟨"raw", ["z"], "e"⟩], "m"⟩ (fun _ => "X") true
    "a.ipynb".data none true
  exact (h.2.2.2 0 (by decide) (by decide)).2.2.1 (by decide) (by decide)

theorem TranslateNotebooks.translate_markdown_cells_notebook (input_path : List Char)
    (nb : Notebook) (tr : String → String) (op : Option (List Char)) (w : Bool) :
    (TranslateNotebooks.translate_markdown_cells input_path nb tr op w).notebook =
      { nb with
        cells := (nb.cells.map (TranslateNotebooks.processCell tr)).map Prod.fst } := by
  rw [TranslateNotebooks.translate_markdown_cells]
  split
  · split <;> rfl
  · rfl

theorem TranslateNotebooks.translate_markdown_cells_length (input_path : List Char)
    (nb : Notebook) (tr : String → String) (op : Option (List Char)) (w : Bool) :
    (TranslateNotebooks.translate_markdown_cells input_path nb tr op
        w).notebook.cells.length = nb.cells.length := by
  rw [TranslateNotebooks.translate_markdown_cells_notebook]
  simp

theorem TranslateNotebooks.translate_markdown_cells_get (input_path : List Char)
    (nb : Notebook) (tr : String → String) (op : Option (List Char)) (w : Bool)
    (i : Nat) (h1 : i < nb.cells.length)
    (h2 : i < (TranslateNotebooks.translate_markdown_cells input_path nb tr op
        w).notebook.cells.length) :
    (TranslateNotebooks.translate_markdown_cells input_path nb tr op
        w).notebook.cells.get ⟨i, h2⟩ =
      (TranslateNotebooks.processCell tr (nb.cells.get ⟨i, h1⟩)).1 := by
  have hnb := TranslateNotebooks.translate_markdown_cells_notebook input_path nb tr op w
  simp [List.get_eq_getElem, hnb, List.getElem_map]

theorem TranslateNotebooks.translate_markdown_cells_written (input_path : List Char)
    (nb : Notebook) (tr : String → String) (op : Option (List Char)) (w : Bool)
    (p : List Char) (d : Notebook)
    (h : (TranslateNotebooks.translate_markdown_cells input_path nb tr op w).written
      = some (p, d)) :
    p = op.getD (derive_output_path "translated_".data input_path) ∧
    d = (TranslateNotebooks.translate_markdown_cells input_path nb tr op w).notebook := by
  rw [TranslateNotebooks.translate_markdown_cells_notebook]
  rw [TranslateNotebooks.translate_markdown_cells] at h
  split at h
  · split at h
    · simp only [Option.some.injEq, Prod.mk.injEq] at h
      exact ⟨h.1.symm, h.2.symm⟩
    · simp at h
  · simp at h

theorem TranslateNotebooks.processCell_fields (tr : String → String) (c : Cell) :
    (TranslateNotebooks.processCell tr c).1.cell_type = c.cell_type ∧
    (c.cell_type = "markdown" →
      (TranslateNotebooks.processCell tr c).1.source = [tr (joinSource c.source)]) ∧
    (c.cell_type ≠ "markdown" → (TranslateNotebooks.processCell tr c).1 = c) := by
  rw [TranslateNotebooks.processCell]
  by_cases hmd : c.cell_type = "markdown"
  · rw [if_pos hmd]
    exact ⟨rfl, fun _ => rfl, fun hn => absurd hmd hn⟩
  · rw [if_neg hmd]
    exact ⟨rfl, fun hm => absurd hm hmd, fun _ => rfl⟩

theorem processCell_markdown_collapse (tr : String → String) (tc : Bool) (c : Cell)
    (h : c.cell_type = "markdown") :
    (processCell tr tc c).1 = c ∨
    (processCell tr tc c).1.source = [tr (joinSource c.source)] := by
  rw [processCell, if_pos h]
  by_cases hch : tr (joinSource c.source) ≠ joinSource c.source
  · rw [if_pos hch]
    exact Or.inr rfl
  · rw [if_neg hch]
    exact Or.inl rfl

/-- C10: in `translate_notebook_cells` a markdown cell is either left
untouched or its fragment list is collapsed to the singleton holding the
translated body; in `translate_markdown_cells` of `translate_notebooks.py`
the fragment list of every markdown cell is collapsed to that singleton even
when the translation equals the original, so any document it writes has all
markdown fragment lists normalized to one element. -/
theorem claim_C10 (nb : Notebook) (tr : String → String) (translate_code : Bool)
    (input_path : List Char) (output_path : Option (List Char)) (writeOk : Bool) :
    (∀ i, (h1 : i < nb.cells.length) →
      (h2 : i < (translate_notebook_cells input_path nb tr translate_code output_path
        writeOk).notebook.cells.length) →
      (nb.cells.get ⟨i, h1⟩).cell_type = "markdown" →
      ((translate_notebook_cells input_path nb tr translate_code output_path
          writeOk).notebook.cells.get ⟨i, h2⟩ = nb.cells.get ⟨i, h1⟩ ∨
        ((translate_notebook_cells input_path nb tr translate_code output_path
          writeOk).notebook.cells.get ⟨i, h2⟩).source =
          [tr (joinSource (nb.cells.get ⟨i, h1⟩).source)])) ∧
    (∀ i, (h1 : i < nb.cells.length) →
      (h2 : i < (TranslateNotebooks.translate_markdown_cells input_path nb tr
        output_path writeOk).notebook.cells.length) →
      (nb.cells.get ⟨i, h1⟩).cell_type = "markdown" →
      ((TranslateNotebooks.translate_markdown_cells input_path nb tr output_path
          writeOk).notebook.cells.get ⟨i, h2⟩).source =
        [tr (joinSource (nb.cells.get ⟨i, h1⟩).source)]) ∧
    (∀ p d, (TranslateNotebooks.translate_markdown_cells input_path nb tr output_path
        writeOk).written = some (p, d) →
      ∀ i, (hi : i < d.cells.length) →
      (d.cells.get ⟨i, hi⟩).cell_type = "markdown" →
      ∃ s, (d.cells.get ⟨i, hi⟩).source = [s]) := by
  refine ⟨?_, ?_, ?_⟩
  · intro i h1 h2 hmd
    rw [translate_notebook_cells_get input_path nb tr translate_code output_path
      writeOk i h1 h2]
    exact processCell_markdown_collapse tr translate_code _ hmd
  · intro i h1 h2 hmd
    rw [TranslateNotebooks.translate_markdown_cells_get input_path nb tr output_path
      writeOk i h1 h2]
    exact (TranslateNotebooks.processCell_fields tr _).2.1 hmd
  · intro p d hw i hi hmd
    have hd := (TranslateNotebooks.translate_markdown_cells_written input_path nb tr
      output_path writeOk p d hw).2
    subst hd
    have h1 : i < nb.cells.length := by
      have := TranslateNotebooks.translate_markdown_cells_length input_path nb tr
        output_path writeOk
      omega
    rw [TranslateNotebooks.translate_markdown_cells_get input_path nb tr output_path
      writeOk i h1 hi] at hmd ⊢
    have hspec := TranslateNotebooks.processCell_fields tr (nb.cells.get ⟨i, h1⟩)
    have hmd0 : (nb.cells.get ⟨i, h1⟩).cell_type = "markdown" := by
      rw [← hspec.1]
      exact hmd
    exact ⟨tr (joinSource (nb.cells.get ⟨i, h1⟩).source), hspec.2.1 hmd0⟩

theorem claim_C10_witness :
    ((TranslateNotebooks.translate_markdown_cells "a.ipynb".data
        ⟨[⟨"markdown", ["hi", "!"], "e"⟩], "m"⟩ (fun _ => "X") none
        true).notebook.cells.get ⟨0, by decide⟩).source = ["X"] := by
  have h := claim_C10 ⟨[⟨"markdown", ["hi", "!"], "e"⟩], "m"⟩ (fun _ => "X") false
    "a.ipynb".data none true
  exact h.2.1 0 (by decide) (by decide) (by decide)

/-- C6 counterexample: a two-document batch under
`translate_notebooks_gcloud.py` where the first document changes but its
write fails: the write raises out of `translate_markdown_cells`, the
unprotected directory loop aborts, and the remaining document is never
processed — the batch does not continue. -/
theorem claim_C6_counterexample :
    Gcloud.translate_notebooks_in_directory
        [⟨"a.ipynb".data, ⟨[⟨"markdown", ["hello"], ""⟩], ""⟩, false⟩,
         ⟨"b.ipynb".data, ⟨[⟨"markdown", ["hello"], ""⟩], ""⟩, true⟩]
        (fun _ => "X") = ([], true) := by
  decide

/-- C6 (amended): in `translate_notebooks2.py` and `translate_notebooks.py`
the output write is wrapped in `try/except`, so a write failure is only
recorded and logged and every document of a batch is processed; in
`translate_notebooks_gcloud.py` the write is unprotected, so a failing
write of a changed document raises out of the document processor and aborts
the remaining batch. -/
theorem claim_C6 (docs : List Doc) (tr : String → String) (translate_code : Bool)
    (input_path : List Char) (nb : Notebook) (output_path : Option (List Char)) :
    (translate_notebooks_in_directory docs tr translate_code).length = docs.length ∧
    (TranslateNotebooks.translate_notebooks_in_directory docs tr).length
      = docs.length ∧
    ((nb.cells.map (processCell tr translate_code)).any Prod.snd = true →
      translate_notebook_cells input_path nb tr translate_code output_path false =
        ⟨{ nb with
            cells := (nb.cells.map (processCell tr translate_code)).map Prod.fst },
          none, true⟩) ∧
    ((nb.cells.map (Gcloud.processCell tr)).any Prod.snd = true →
      Gcloud.translate_markdown_cells input_path nb tr output_path false =
        Except.error ()) ∧
    (∀ d rest, Gcloud.translate_markdown_cells d.path d.nb tr none d.writeOk =
        Except.error () →
      Gcloud.translate_notebooks_in_directory (d :: rest) tr = ([], true)) := by
  refine ⟨by simp [translate_notebooks_in_directory],
    by simp [TranslateNotebooks.translate_notebooks_in_directory], ?_, ?_, ?_⟩
  · intro hany
    rw [translate_notebook_cells]
    simp [hany]
  · intro hany
    rw [Gcloud.translate_markdown_cells]
    simp [hany]
  · intro d rest herr
    rw [Gcloud.translate_notebooks_in_directory, herr]

theorem claim_C6_witness :
    translate_notebook_cells "a.ipynb".data ⟨[⟨"markdown", ["hello"], ""⟩], ""⟩
        (fun _ => "X") false none false =
      ⟨⟨[⟨"markdown", ["X"], ""⟩], ""⟩, none, true⟩ ∧
    Gcloud.translate_markdown_cells "a.ipynb".data
        ⟨[⟨"markdown", ["hello"], ""⟩], ""⟩ (fun _ => "X") none false
      = Except.error () ∧
    Gcloud.translate_notebooks_in_directory
        [⟨"a.ipynb".data, ⟨[⟨"markdown", ["hello"], ""⟩], ""⟩, false⟩]
        (fun _ => "X") = ([], true) := by
  have h := claim_C6 [] (fun _ => "X") false "a.ipynb".data
    ⟨[⟨"markdown", ["hello"], ""⟩], ""⟩ none
  refine ⟨?_, h.2.2.2.1 (by decide), ?_⟩
  · rw [h.2.2.1 (by decide)]
    decide
  · exact h.2.2.2.2 ⟨"a.ipynb".data, ⟨[⟨"markdown", ["hello"], ""⟩], ""⟩, false⟩ []
      (h.2.2.2.1 (by decide))

/-- C8: with no explicit output path the destination is
`os.path.join(dirname, marker + filename)` — the same directory as the
source with the filename carrying the fixed marker — and this derived path
is always different from the input path, both for the `"jp_"` marker of
`translate_notebooks2.py` and the `"translated_"` marker of the other two
scripts; an explicitly supplied output path is used verbatim. -/
theorem claim_C8 (input_path : List Char) (nb : Notebook) (tr : String → String)
    (translate_code : Bool) (writeOk : Bool) (o : List Char) :
    derive_output_path "jp_".data input_path =
      os_path_join (os_path_split input_path).1
        ("jp_".data ++ (os_path_split input_path).2) ∧
    derive_output_path "jp_".data input_path ≠ input_path ∧
    derive_output_path "translated_".data input_path ≠ input_path ∧
    (∀ p d, (translate_notebook_cells input_path nb tr translate_code none
        writeOk).written = some (p, d) →
      p = derive_output_path "jp_".data input_path) ∧
    (∀ p d, (translate_notebook_cells input_path nb tr translate_code (some o)
        writeOk).written = some (p, d) → p = o) ∧
    (∀ p d, (TranslateNotebooks.translate_markdown_cells input_path nb tr none
        writeOk).written = some (p, d) →
      p = derive_output_path "translated_".data input_path) := by
  refine ⟨rfl, derive_output_path_ne _ _ (by decide) (by decide),
    derive_output_path_ne _ _ (by decide) (by decide), ?_, ?_, ?_⟩
  · intro p d hw
    exact (translate_notebook_cells_written _ _ _ _ _ _ _ _ hw).1
  · intro p d hw
    exact (translate_notebook_cells_written _ _ _ _ _ _ _ _ hw).1
  · intro p d hw
    exact (TranslateNotebooks.translate_markdown_cells_written _ _ _ _ _ _ _ hw).1

theorem claim_C8_witness :
    "jp_a.ipynb".data = derive_output_path "jp_".data "a.ipynb".data ∧
    "out.ipynb".data = "out.ipynb".data := by
  have h := claim_C8 "a.ipynb".data ⟨[⟨"markdown", ["hi"], ""⟩], ""⟩ (fun _ => "X")
    false true "out.ipynb".data
  constructor
  · exact h.2.2.2.1 "jp_a.ipynb".data ⟨[⟨"markdown", ["X"], ""⟩], ""⟩ (by decide)
  · exact h.2.2.2.2.1 "out.ipynb".data ⟨[⟨"markdown", ["X"], ""⟩], ""⟩ (by decide)
